import Mathlib

/-!
Shallow embedding of the core of `kp-fetch` (files `src/influx.rs` and
`src/kp_data.rs`), together with theorems settling the spec claims.

Modelling conventions:
* Rust `f32` values are modelled by `FVal`: either an exact fraction `Fr`
  (numerator over a positive power-of-ten style denominator, kept
  unnormalised so that the kernel can evaluate it), or the special values
  `nan` / `inf` / `ninf`.  The program only ever constructs floats by
  parsing decimal literals, on which this model is exact.
* Rust `HashMap<String, Value>` is modelled as an association list whose
  list order stands for the map's (unspecified) iteration order; an insert
  on an existing key keeps its position, an insert of a new key is placed
  at the end of the list (one of the orders the hash map may expose).
* Rust `BTreeMap<String, String>` is modelled as an association list kept
  sorted by key (byte-lexicographic order, `strLtb`).
* `chrono::NaiveDateTime` is modelled by the `DateTime` record; chrono
  orders date-times chronologically, realised here by the injective-on-
  valid-dates integer key `DateTime.key`.  Library calls that panic
  (`from_ymd` / `and_hms` on out-of-range components, the `len()-1`
  underflow in `get_new_entries`) are modelled by an outer `Option`, with
  `none` standing for the panic.
-/

/-- Exact fraction modelling a parsed `f32` decimal literal: `num / den`,
`den` positive by construction, not normalised. -/
structure Fr where
  num : Int
  den : Nat
  deriving DecidableEq

/-- Comparison `a < b` on fractions with positive denominators. -/
def Fr.ltb (a b : Fr) : Bool :=
  decide (a.num * (b.den : Int) < b.num * (a.den : Int))

/-- Comparison `a ≤ b` on fractions with positive denominators. -/
def Fr.leb (a b : Fr) : Bool :=
  decide (a.num * (b.den : Int) ≤ b.num * (a.den : Int))

/-- Mathematical floor of a fraction. -/
def Fr.floorInt (a : Fr) : Int := Int.fdiv a.num (a.den : Int)

/-- Exact subtraction of fractions. -/
def Fr.sub (a b : Fr) : Fr :=
  ⟨a.num * (b.den : Int) - b.num * (a.den : Int), a.den * b.den⟩

/-- Exact multiplication by a natural number. -/
def Fr.mulNat (a : Fr) (n : Nat) : Fr := ⟨a.num * (n : Int), a.den⟩

/-- Model of a Rust `f32` value: an exact decimal fraction or one of the
special IEEE values. -/
inductive FVal where
  | num (f : Fr)
  | nan
  | inf
  | ninf
  deriving DecidableEq

/-- IEEE `<` on modelled `f32` values: any comparison with NaN is false. -/
def FVal.ltb : FVal → FVal → Bool
  | .nan, _ => false
  | _, .nan => false
  | .num a, .num b => a.ltb b
  | .num _, .inf => true
  | .num _, .ninf => false
  | .inf, _ => false
  | .ninf, .ninf => false
  | .ninf, _ => true

/-- IEEE `≤` on modelled `f32` values: any comparison with NaN is false. -/
def FVal.leb : FVal → FVal → Bool
  | .nan, _ => false
  | _, .nan => false
  | .num a, .num b => a.leb b
  | .num _, .inf => true
  | .num _, .ninf => false
  | .inf, .inf => true
  | .inf, _ => false
  | .ninf, _ => true

/-- Rust `f32::floor`. -/
def FVal.floorF : FVal → FVal
  | .num a => .num ⟨a.floorInt, 1⟩
  | v => v

/-- Rust `f32` subtraction (exact on the decimal values this program uses). -/
def FVal.subF : FVal → FVal → FVal
  | .num a, .num b => .num (a.sub b)
  | .nan, _ => .nan
  | _, .nan => .nan
  | .inf, .inf => .nan
  | .inf, _ => .inf
  | .ninf, .ninf => .nan
  | .ninf, _ => .ninf
  | .num _, .inf => .ninf
  | .num _, .ninf => .inf

/-- Rust `f32` multiplication by the literal `60.0`. -/
def FVal.mul60 : FVal → FVal
  | .num a => .num (a.mulNat 60)
  | v => v

/-- Rust saturating cast `as u32` from `f32`: truncates toward zero,
clamps to `[0, u32::MAX]`, maps NaN to 0. -/
def f32ToU32 : FVal → Nat
  | .nan => 0
  | .inf => 4294967295
  | .ninf => 0
  | .num a =>
    if a.ltb ⟨0, 1⟩ then 0
    else min 4294967295 a.floorInt.toNat

/-- Model of `chrono::NaiveDateTime` (sub-second part always zero here). -/
structure DateTime where
  year : Int
  month : Nat
  day : Nat
  hour : Nat
  minute : Nat
  second : Nat
  deriving DecidableEq

/-- Order key for date-times.  chrono compares `NaiveDateTime`s
chronologically; on in-range components (month ≤ 12, day ≤ 31, hour ≤ 23,
minute, second ≤ 59) this mixed-radix key realises exactly that order. -/
def DateTime.key (d : DateTime) : Int :=
  ((((d.year * 13 + (d.month : Int)) * 32 + (d.day : Int)) * 24 + (d.hour : Int)) * 60
      + (d.minute : Int)) * 60 + (d.second : Int)

/-- Boolean `a < b` on date-times (chrono's chronological order). -/
def DateTime.ltb (a b : DateTime) : Bool := decide (a.key < b.key)

/-- Boolean `a ≤ b` on date-times. -/
def DateTime.leb (a b : DateTime) : Bool := decide (a.key ≤ b.key)

/-- Byte-lexicographic order on character lists, as Rust's `Ord` on
`String` (UTF-8 byte order coincides with scalar-value order). -/
def chListLt : List Char → List Char → Bool
  | [], [] => false
  | [], _ :: _ => true
  | _ :: _, [] => false
  | a :: as, b :: bs =>
    if a.toNat < b.toNat then true
    else if b.toNat < a.toNat then false
    else chListLt as bs

/-- Rust's `<` on `String`. -/
def strLtb (a b : String) : Bool := chListLt a.data b.data

/-- Rust `str::trim` (both ends, whitespace). -/
def rustTrim (s : String) : String :=
  String.mk (((s.data.dropWhile Char.isWhitespace).reverse.dropWhile Char.isWhitespace).reverse)

/-- Lookup in an association list (the `get`/`contains_key` of both maps). -/
def assocFind? (k : String) : List (String × α) → Option α
  | [] => none
  | (k', v) :: rest => if k' = k then some v else assocFind? k rest

/-- Rust `contains_key`. -/
def assocContains (l : List (String × α)) (k : String) : Bool :=
  (assocFind? k l).isSome

/-- `HashMap::insert`: an existing key keeps its place in iteration order
(and keeps the stored key); a new key lands at an unspecified place in
iteration order, modelled here as the end of the list. -/
def hmInsert (k : String) (v : α) : List (String × α) → List (String × α)
  | [] => [(k, v)]
  | (k', v') :: rest =>
    if k' = k then (k', v) :: rest else (k', v') :: hmInsert k v rest

/-- `BTreeMap::insert` on the sorted association list: keeps the list
sorted by key, replaces the value (not the key) on an equal key. -/
def btInsert (k v : String) : List (String × String) → List (String × String)
  | [] => [(k, v)]
  | (k', v') :: rest =>
    if strLtb k k' then (k, v) :: (k', v') :: rest
    else if k = k' then (k', v) :: rest
    else (k', v') :: btInsert k v rest

/-- Decimal rendering of the fractional part (numerator `n` over
denominator `d`, `0 ≤ n < d`), matching Rust's shortest-round-trip float
printing on the exactly-representable decimals this program constructs. -/
def fracDigits : Nat → Nat → Nat → String
  | _, _, 0 => ""
  | n, d, fuel + 1 =>
    if n = 0 then ""
    else String.mk [Nat.digitChar (n * 10 / d)] ++ fracDigits (n * 10 % d) d fuel

/-- Rust `Display` of an `f32` fraction value. -/
def fmtFr (a : Fr) : String :=
  let sign := if a.num < 0 then "-" else ""
  let n := a.num.natAbs
  let ip := n / a.den
  let rem := n % a.den
  sign ++ toString ip ++ (if rem = 0 then "" else "." ++ fracDigits rem a.den 40)

/-- Rust `Display` of an `f32` model value. -/
def fmtFVal : FVal → String
  | .num a => fmtFr a
  | .nan => "NaN"
  | .inf => "inf"
  | .ninf => "-inf"

/-- The `escape` helper of `src/influx.rs`, body of the per-character
`match`: flagged characters become `\` + literal when their flag is set
and produce no output at all when it is not; newline, carriage return and
tab always become two-character escapes; everything else passes through. -/
def escChar (c : Char) (equal commas spaces double_quotes : Bool) : String :=
  if c = '\n' then "\\n"
  else if c = '\r' then "\\r"
  else if c = '\t' then "\\t"
  else if c = '=' then (if equal then "\\=" else "")
  else if c = ' ' then (if spaces then "\\ " else "")
  else if c = ',' then (if commas then "\\," else "")
  else if c = '\"' then (if double_quotes then "\\\"" else "")
  else String.mk [c]

/-- The `escape` function of `src/influx.rs` (the `fmt::Error` result is
unreachable when writing to an in-memory `String`, so it is dropped). -/
def escape (value : String) (equal commas spaces double_quotes str_escape : Bool) : String :=
  let res := if str_escape then "\"" else ""
  let res := value.data.foldl
    (fun acc c => acc ++ escChar c equal commas spaces double_quotes) res
  if str_escape then res ++ "\"" else res

/-- The `Value` enum of `src/influx.rs` (`f32`/`f64` both through `FVal`,
`i128` as `Int`, `u128` as `Nat`). -/
inductive Value where
  | Float (f : FVal)
  | Double (f : FVal)
  | Signed (i : Int)
  | Unsigned (u : Nat)
  | Str (s : String)
  | True
  | False
  deriving DecidableEq

/-- `Display for Value` of `src/influx.rs`. -/
def Value.display : Value → String
  | .Float f => fmtFVal f
  | .Double f => fmtFVal f
  | .Signed i => toString i ++ "i"
  | .Unsigned u => toString u ++ "u"
  | .Str s => escape s false false false true true
  | .True => "true"
  | .False => "false"

/-- The `TimestampFormat` enum of `src/influx.rs`. -/
inductive TimestampFormat where
  | None
  | Ms
  | S
  | Us
  | Ns
  deriving DecidableEq

/-- The `Measurement` struct of `src/influx.rs`.  `values` is the
`HashMap` contents in iteration order, `tags` the `BTreeMap` contents in
ascending key order. -/
structure Measurement where
  name : String
  event_time : Option DateTime
  values : List (String × Value)
  tags : List (String × String)
  deriving DecidableEq

/-- `Measurement::new`. -/
def Measurement.new (name : String) : Measurement := ⟨name, none, [], []⟩

/-- `Measurement::set_time`. -/
def Measurement.set_time (m : Measurement) (time : DateTime) : Measurement :=
  { m with event_time := some time }

/-- `Measurement::add_value`: note the presence test uses the key as
given while the insert uses the trimmed key, exactly as the source does. -/
def Measurement.add_value (m : Measurement) (key : String) (value : Value)
    (replace : Bool) : Measurement :=
  if replace || !(assocContains m.values key) then
    { m with values := hmInsert (rustTrim key) value m.values }
  else m

/-- `Measurement::add_tag`: same untrimmed-test / trimmed-insert shape. -/
def Measurement.add_tag (m : Measurement) (key value : String)
    (replace : Bool) : Measurement :=
  if replace || !(assocContains m.tags key) then
    { m with tags := btInsert (rustTrim key) value m.tags }
  else m

/-- Days from the civil epoch 1970-01-01 (Hinnant's algorithm), the count
chrono uses for `NaiveDateTime::timestamp`. -/
def daysFromCivil (y : Int) (m d : Nat) : Int :=
  let yy : Int := if m ≤ 2 then y - 1 else y
  let era : Int := Int.fdiv yy 400
  let yoe : Int := yy - era * 400
  let mp : Int := if m ≤ 2 then (m : Int) + 9 else (m : Int) - 3
  let doy : Int := Int.fdiv (153 * mp + 2) 5 + (d : Int) - 1
  let doe : Int := yoe * 365 + Int.fdiv yoe 4 - Int.fdiv yoe 100 + doy
  era * 146097 + doe - 719468

/-- chrono `NaiveDateTime::timestamp`: whole seconds since the epoch. -/
def timestampSecs (dt : DateTime) : Int :=
  daysFromCivil dt.year dt.month dt.day * 86400
    + (dt.hour : Int) * 3600 + (dt.minute : Int) * 60 + (dt.second : Int)

/-- `Measurement::to_line_protocol` of `src/influx.rs`, with the mutable
separator of the field loop modelled as a fold over a pair
(buffer, next separator); the unreachable `fmt::Error` is dropped. -/
def Measurement.to_line_protocol (m : Measurement)
    (timestamp_format : TimestampFormat) : String :=
  let buf := escape m.name false true true true false
  let buf := m.tags.foldl
    (fun acc kv =>
      acc ++ "," ++ escape kv.1 true true true true false ++ "="
        ++ escape kv.2 true true true true false) buf
  let p := m.values.foldl
    (fun (p : String × String) kv =>
      (p.1 ++ p.2 ++ escape kv.1 true true true true false ++ "=" ++ kv.2.display, ","))
    (buf, " ")
  let buf := p.1
  match m.event_time with
  | some ts =>
    match timestamp_format with
    | .S => buf ++ " " ++ toString (timestampSecs ts)
    | .Ms => buf ++ " " ++ toString (timestampSecs ts * 1000)
    | .Us => buf ++ " " ++ toString (timestampSecs ts * 1000000)
    | .Ns => buf ++ " " ++ toString (timestampSecs ts * 1000000000)
    | .None => buf
  | none => buf

/-- Spec-side separator join (used to state what the field loop emits). -/
def joinSep (sep : String) : List String → String
  | [] => ""
  | [x] => x
  | x :: y :: rest => x ++ sep ++ joinSep sep (y :: rest)

/-- Spec-side rendering of one tag, per the spec's step (2). -/
def tagPart (kv : String × String) : String :=
  "," ++ escape kv.1 true true true true false ++ "=" ++ escape kv.2 true true true true false

/-- Spec-side rendering of one field, per the spec's step (4). -/
def fieldPart (kv : String × Value) : String :=
  escape kv.1 true true true true false ++ "=" ++ kv.2.display

/-- Spec-side rendering of the optional trailing timestamp, per the
spec's step (5). -/
def tsPart (et : Option DateTime) (fmt : TimestampFormat) : String :=
  match et, fmt with
  | some ts, .S => " " ++ toString (timestampSecs ts)
  | some ts, .Ms => " " ++ toString (timestampSecs ts * 1000)
  | some ts, .Us => " " ++ toString (timestampSecs ts * 1000000)
  | some ts, .Ns => " " ++ toString (timestampSecs ts * 1000000000)
  | some _, .None => ""
  | none, _ => ""

/-- Concatenation of a list of strings. -/
def strConcat : List String → String
  | [] => ""
  | s :: rest => s ++ strConcat rest

/-- Modelled from the spec: the line layout of section 4.3 — escaped name,
tag parts in the stored (ascending) order, one space, field parts in the
stored order separated by commas, optional timestamp. -/
def lineSpec (m : Measurement) (fmt : TimestampFormat) : String :=
  escape m.name false true true true false
    ++ strConcat (m.tags.map tagPart)
    ++ " " ++ joinSep "," (m.values.map fieldPart)
    ++ tsPart m.event_time fmt

/-- The `ParseError` enum of `src/kp_data.rs` (payloads of the wrapped
std errors are not needed by any claim and are dropped). -/
inductive ParseError where
  | Io
  | Error (msg : String)
  | ParseInt
  | ParseFloat
  deriving DecidableEq

/-- Numeric value of a list of decimal digit characters. -/
def digitsVal (cs : List Char) : Nat :=
  cs.foldl (fun a c => a * 10 + (c.toNat - 48)) 0

/-- Parse a non-empty all-digit character list. -/
def parseDecDigits : List Char → Option Nat
  | [] => none
  | cs => if cs.all Char.isDigit then some (digitsVal cs) else none

/-- Rust integer `FromStr`: optional single sign, one or more digits,
range check against the target type's bounds. -/
def parseIntRange (lo hi : Int) (s : String) : Option Int :=
  let signed : Option Int :=
    match s.data with
    | '+' :: r => (parseDecDigits r).map (fun n => (n : Int))
    | '-' :: r => (parseDecDigits r).map (fun n => -(n : Int))
    | r => (parseDecDigits r).map (fun n => (n : Int))
  match signed with
  | some v => if lo ≤ v ∧ v ≤ hi then some v else none
  | none => none

/-- Rust `f32::MAX` as an exact integer. -/
def f32MaxInt : Int := 340282346638528859811704183484516925440

/-- Rust `f32` `FromStr`: optional sign; `inf` / `infinity` / `nan`
(ASCII case-insensitive); or a decimal mantissa with at least one digit,
an optional fractional part and an optional exponent.  The numeric value
is kept exact (the feed's literals are short decimals); magnitudes beyond
`f32::MAX` overflow to infinity as in Rust. -/
def parseF32 (s : String) : Option FVal :=
  let (neg, cs) :=
    match s.data with
    | '+' :: r => (false, r)
    | '-' :: r => (true, r)
    | r => (false, r)
  let lower := cs.map Char.toLower
  if lower = ['i', 'n', 'f'] ∨ lower = ['i', 'n', 'f', 'i', 'n', 'i', 't', 'y'] then
    some (if neg then .ninf else .inf)
  else if lower = ['n', 'a', 'n'] then
    some .nan
  else
    let ip := cs.takeWhile Char.isDigit
    let rest := cs.dropWhile Char.isDigit
    let (fp, rest2) :=
      match rest with
      | '.' :: r => (r.takeWhile Char.isDigit, r.dropWhile Char.isDigit)
      | r => ([], r)
    if ip = [] ∧ fp = [] then none
    else
      let expPart : Option Int :=
        match rest2 with
        | [] => some 0
        | 'e' :: r =>
          match r with
          | '+' :: r2 => (parseDecDigits r2).map (fun n => (n : Int))
          | '-' :: r2 => (parseDecDigits r2).map (fun n => -(n : Int))
          | r2 => (parseDecDigits r2).map (fun n => (n : Int))
        | 'E' :: r =>
          match r with
          | '+' :: r2 => (parseDecDigits r2).map (fun n => (n : Int))
          | '-' :: r2 => (parseDecDigits r2).map (fun n => -(n : Int))
          | r2 => (parseDecDigits r2).map (fun n => (n : Int))
        | _ => none
      match expPart with
      | none => none
      | some e =>
        let mantNum : Nat := digitsVal (ip ++ fp)
        let mantDen : Nat := 10 ^ fp.length
        let (n, d) : Int × Nat :=
          if 0 ≤ e then (((mantNum : Int) * 10 ^ e.toNat), mantDen)
          else ((mantNum : Int), mantDen * 10 ^ (-e).toNat)
        let v : Fr := ⟨if neg then -n else n, d⟩
        if (Fr.ltb ⟨f32MaxInt, 1⟩ ⟨n, d⟩) then
          some (if neg then .ninf else .inf)
        else
          some (.num v)

/-- Rust `str::split_whitespace`: maximal non-empty runs between
whitespace. -/
def splitWsGo : List Char → List Char → List String
  | [], acc => if acc = [] then [] else [String.mk acc.reverse]
  | c :: rest, acc =>
    if c.isWhitespace then
      if acc = [] then splitWsGo rest []
      else String.mk acc.reverse :: splitWsGo rest []
    else splitWsGo rest (c :: acc)

/-- Rust `str::split_whitespace` over a string. -/
def splitWs (s : String) : List String := splitWsGo s.data []

/-- chrono year bounds: `from_ymd` panics outside
`MIN_YEAR ..= MAX_YEAR` = `i32::MIN >> 13 ..= i32::MAX >> 13`. -/
def chronoYearOk (y : Int) : Bool := decide (-262144 ≤ y ∧ y ≤ 262143)

/-- Gregorian leap year. -/
def isLeapYear (y : Int) : Bool :=
  (y % 4 = 0 ∧ y % 100 ≠ 0) ∨ y % 400 = 0

/-- Days in a month (0 for an invalid month number). -/
def daysInMonth (y : Int) (m : Nat) : Nat :=
  if m = 1 ∨ m = 3 ∨ m = 5 ∨ m = 7 ∨ m = 8 ∨ m = 10 ∨ m = 12 then 31
  else if m = 4 ∨ m = 6 ∨ m = 9 ∨ m = 11 then 30
  else if m = 2 then (if isLeapYear y then 29 else 28)
  else 0

/-- Validity check of `chrono::NaiveDate::from_ymd`, which panics on an
out-of-range date. -/
def validYmd (y : Int) (m d : Nat) : Bool :=
  chronoYearOk y && decide (1 ≤ m) && decide (m ≤ 12)
    && decide (1 ≤ d) && decide (d ≤ daysInMonth y m)

/-- The `Entry` struct of `src/kp_data.rs` (`kp: f32` as `FVal`,
`ap: i8` and `d: i8` as range-checked `Int`). -/
structure Entry where
  date : DateTime
  kp : FVal
  ap : Int
  d : Int
  deriving DecidableEq

/-- `Entry::from_str` of `src/kp_data.rs`.  The outer `Option` is `none`
exactly when the Rust code panics: `from_ymd` on an invalid or
out-of-range date, or `and_hms` on an hour / minute out of range. -/
def Entry.from_str (line : String) : Option (Except ParseError Entry) :=
  let parts := splitWs (rustTrim line)
  if parts.length ≠ 10 then
    some (.error (.Error "Line with invalid number of elements"))
  else
    match parseF32 (parts.getD 4 "") with
    | none => some (.error .ParseFloat)
    | some hp =>
      let h : Nat := f32ToU32 hp.floorF
      let m : Nat := f32ToU32 ((hp.subF (.num ⟨(h : Int), 1⟩)).mul60)
      match parseIntRange (-2147483648) 2147483647 (parts.getD 0 "") with
      | none => some (.error .ParseInt)
      | some y =>
        match parseIntRange 0 4294967295 (parts.getD 1 "") with
        | none => some (.error .ParseInt)
        | some mo =>
          match parseIntRange 0 4294967295 (parts.getD 2 "") with
          | none => some (.error .ParseInt)
          | some dy =>
            if validYmd y mo.toNat dy.toNat && decide (h ≤ 23) && decide (m ≤ 59) then
              let date : DateTime := ⟨y, mo.toNat, dy.toNat, h, m, 0⟩
              match parseF32 (parts.getD 7 "") with
              | none => some (.error .ParseFloat)
              | some kp =>
                match parseIntRange (-128) 127 (parts.getD 8 "") with
                | none => some (.error .ParseInt)
                | some ap =>
                  match parseIntRange (-128) 127 (parts.getD 9 "") with
                  | none => some (.error .ParseInt)
                  | some d => some (.ok ⟨date, kp, ap, d⟩)
            else
              none

/-- The `KpFile` struct of `src/kp_data.rs`. -/
structure KpFile where
  entries : List Entry
  last_final_idx : Int
  deriving DecidableEq

/-- `KpFile::new`. -/
def KpFile.new : KpFile := ⟨[], -1⟩

/-- Split a character list at every `\n`. -/
def splitNl : List Char → List Char → List (List Char)
  | [], acc => [acc.reverse]
  | c :: rest, acc =>
    if c = '\n' then acc.reverse :: splitNl rest []
    else splitNl rest (c :: acc)

/-- Rust `str::lines`: split on `\n`, drop a final empty piece, strip a
trailing `\r` from each line. -/
def rustLines (text : String) : List String :=
  let ls := splitNl text.data []
  let ls := if ls.getLast? = some [] then ls.dropLast else ls
  ls.map (fun l =>
    match l.reverse with
    | '\r' :: r => String.mk r.reverse
    | _ => String.mk l)

/-- Does `KpFile::from_str` skip this line (after trimming: empty, or
starting with `#`)? -/
def skipLine (line : String) : Bool :=
  let l := rustTrim line
  (match l.data with
   | '#' :: _ => true
   | _ => false) || l = ""

/-- One loop iteration of `KpFile::from_str`: skip comment/blank lines,
parse an `Entry` (propagating its error / panic), silently drop sentinel
rows with `kp < 0.0 || ap < 0`, update `last_final_idx` before pushing
when `d == 1`. -/
def KpFile.processLine (file : KpFile) (line : String) :
    Option (Except ParseError KpFile) :=
  if skipLine line then some (.ok file)
  else
    match Entry.from_str (rustTrim line) with
    | none => none
    | some (.error e) => some (.error e)
    | some (.ok entry) =>
      if entry.kp.ltb (.num ⟨0, 1⟩) || decide (entry.ap < 0) then some (.ok file)
      else
        some (.ok ⟨file.entries ++ [entry],
          if entry.d = 1 then (file.entries.length : Int) else file.last_final_idx⟩)

/-- The line loop of `KpFile::from_str`. -/
def KpFile.fromStrGo (file : KpFile) : List String → Option (Except ParseError KpFile)
  | [] => some (.ok file)
  | l :: rest =>
    match KpFile.processLine file l with
    | none => none
    | some (.error e) => some (.error e)
    | some (.ok f') => KpFile.fromStrGo f' rest

/-- `KpFile::from_str` of `src/kp_data.rs`; `none` models a panic inside
`Entry` parsing. -/
def KpFile.from_str (text : String) : Option (Except ParseError KpFile) :=
  KpFile.fromStrGo KpFile.new (rustLines text)

/-- First index satisfying the predicate (the scan of the Rust `for`
loop). -/
def findIdxB (p : α → Bool) : List α → Option Nat
  | [] => none
  | a :: rest => if p a then some 0 else (findIdxB p rest).map (· + 1)

/-- `KpFile::get_new_entries` of `src/kp_data.rs`.  The scan runs over
indices `0 .. len-1` exclusive (`for idx in 0..self.entries.len()-1`),
i.e. over all entries but the last; `none` models the panic when
`previous` is non-empty and `self.entries` is empty (the `len()-1`
underflow / out-of-bounds index). -/
def KpFile.get_new_entries (self previous : KpFile) : Option (List Entry) :=
  match previous.entries.getLast? with
  | none => some self.entries
  | some lastPrev =>
    match self.entries.length with
    | 0 => none
    | Nat.succ n =>
      match findIdxB (fun e => lastPrev.date.ltb e.date) (self.entries.take n) with
      | some idx => some (self.entries.drop idx)
      | none => some []

/-- Modelled from the spec: the position of the last stored entry whose
finality flag is 1, or -1 when there is none. -/
def specLastFinal (es : List Entry) : Int :=
  match findIdxB (fun e => decide (e.d = 1)) es.reverse with
  | none => -1
  | some k => (es.length : Int) - 1 - (k : Int)

/-- Strings are equal when their character data is. -/
theorem strExt {a b : String} (h : a.data = b.data) : a = b :=
  String.ext h

/-- Character data of the empty string literal. -/
theorem strDataNil : ("" : String).data = [] := rfl

/-- Appending the empty string on the right. -/
theorem strAppendNil (a : String) : a ++ "" = a :=
  strExt (by simp [String.data_append])

/-- Appending the empty string on the left. -/
theorem strNilAppend (a : String) : "" ++ a = a :=
  strExt (by simp [String.data_append, strDataNil])

/-- String append is associative. -/
theorem strAppendAssoc (a b c : String) : a ++ b ++ c = a ++ (b ++ c) :=
  strExt (by simp [String.data_append])

/-- A `findIdxB` scan over elements that all falsify the predicate finds
nothing. -/
theorem findIdxB_eq_none (p : α → Bool) (l : List α)
    (h : ∀ e ∈ l, p e = false) : findIdxB p l = none := by
  induction l with
  | nil => rfl
  | cons a t ih =>
    simp only [findIdxB, h a (List.mem_cons_self a t), Bool.false_eq_true, if_false,
      ih (fun e he => h e (List.mem_cons_of_mem a he)), Option.map_none']

/-- The element reported by `getLast?` is a member of the list. -/
theorem mem_of_getLastQ : ∀ (l : List α) (x : α), l.getLast? = some x → x ∈ l := by
  intro l
  induction l with
  | nil => intro x h; simp [List.getLast?] at h
  | cons a t ih =>
    intro x h
    cases t with
    | nil =>
      simp [List.getLast?] at h
      simp [h]
    | cons b t' =>
      rw [List.getLast?_cons_cons] at h
      exact List.mem_cons_of_mem a (ih x h)

/-- In a list that is pairwise ascending by date key, every member's date
key is at most the last element's date key. -/
theorem pairwise_le_getLast :
    ∀ (l : List Entry) (x : Entry),
      l.Pairwise (fun a b => a.date.key ≤ b.date.key) →
      l.getLast? = some x → ∀ e ∈ l, e.date.key ≤ x.date.key := by
  intro l
  induction l with
  | nil => intro x _ h; simp [List.getLast?] at h
  | cons a t ih =>
    intro x hp hl e he
    cases t with
    | nil =>
      simp [List.getLast?] at hl
      rcases List.mem_singleton.mp he with rfl
      rw [hl]
    | cons b t' =>
      rw [List.getLast?_cons_cons] at hl
      rcases List.mem_cons.mp he with rfl | he'
      · have hx : x ∈ b :: t' := mem_of_getLastQ _ _ hl
        exact (List.pairwise_cons.mp hp).1 x hx
      · exact ih x (List.pairwise_cons.mp hp).2 hl e he'

/-- Example entry: 2022-01-01 00:00, kp 2.0, ap 7, definitive. -/
def entA : Entry := ⟨⟨2022, 1, 1, 0, 0, 0⟩, .num ⟨2, 1⟩, 7, 1⟩

/-- Example entry: 2022-01-01 03:00, kp 3.0, ap 15, provisional. -/
def entB : Entry := ⟨⟨2022, 1, 1, 3, 0, 0⟩, .num ⟨3, 1⟩, 15, 0⟩

/-- C1: the claim as stated is false: with the `=` flag unset, `escape`
does not write the `=` character unchanged; it omits it entirely, so the
output does not contain every input character. -/
theorem C1_counterexample :
    escape "a=b" false false false false false = "ab" ∧
      escape "a=b" false false false false false ≠ "a=b" := by
  decide

/-- C1 (amended): `escape` transforms each character independently (it is
a homomorphism for string append when no quote wrapping is requested);
newline, carriage return and tab always become their two-character
escapes; `=`, space, `,` and `"` become `\` + literal when their flag is
set and are OMITTED from the output when their flag is not set; every
other character passes through unchanged; quote wrapping adds a leading
and trailing `"`. -/
theorem C1_escape_characterisation :
    (∀ (s t : String) (e c sp dq : Bool),
        escape (s ++ t) e c sp dq false = escape s e c sp dq false ++ escape t e c sp dq false) ∧
      (∀ e c sp dq : Bool,
        escape "\n" e c sp dq false = "\\n" ∧ escape "\r" e c sp dq false = "\\r" ∧
          escape "\t" e c sp dq false = "\\t") ∧
      (∀ e c sp dq : Bool,
        escape "=" e c sp dq false = (if e then "\\=" else "") ∧
          escape " " e c sp dq false = (if sp then "\\ " else "") ∧
          escape "," e c sp dq false = (if c then "\\," else "") ∧
          escape "\"" e c sp dq false = (if dq then "\\\"" else "")) ∧
      (∀ (ch : Char) (e c sp dq : Bool),
        ch ∉ ['\n', '\r', '\t', '=', ' ', ',', '\"'] →
          escape (String.mk [ch]) e c sp dq false = String.mk [ch]) ∧
      (∀ (s : String) (e c sp dq : Bool),
        escape s e c sp dq true = "\"" ++ escape s e c sp dq false ++ "\"") := by
  have hfold : ∀ (cs : List Char) (e c sp dq : Bool) (init : String),
      cs.foldl (fun acc ch => acc ++ escChar ch e c sp dq) init
        = init ++ cs.foldl (fun acc ch => acc ++ escChar ch e c sp dq) "" := by
    intro cs e c sp dq
    induction cs with
    | nil => intro init; simp [strAppendNil]
    | cons a t ih =>
      intro init
      simp only [List.foldl_cons]
      rw [ih (init ++ escChar a e c sp dq), ih ("" ++ escChar a e c sp dq)]
      rw [strNilAppend, strAppendAssoc]
  refine ⟨?_, ?_, ?_, ?_, ?_⟩
  · intro s t e c sp dq
    show (s ++ t).data.foldl _ _ = _
    rw [String.data_append, List.foldl_append]
    rw [hfold t.data e c sp dq]
    rfl
  · intro e c sp dq
    refine ⟨?_, ?_, ?_⟩ <;> cases e <;> cases c <;> cases sp <;> cases dq <;> decide
  · intro e c sp dq
    refine ⟨?_, ?_, ?_, ?_⟩ <;> cases e <;> cases c <;> cases sp <;> cases dq <;> decide
  · intro ch e c sp dq h
    simp only [List.mem_cons, not_or] at h
    obtain ⟨h1, h2, h3, h4, h5, h6, h7, -⟩ := h
    show ([ch].foldl (fun acc c' => acc ++ escChar c' e c sp dq) "" : String) = _
    simp only [List.foldl_cons, List.foldl_nil]
    rw [strNilAppend]
    simp [escChar, h1, h2, h3, h4, h5, h6, h7]
  · intro s e c sp dq
    have h1 : escape s e c sp dq true
        = s.data.foldl (fun acc ch => acc ++ escChar ch e c sp dq) "\"" ++ "\"" := rfl
    have h2 : escape s e c sp dq false
        = s.data.foldl (fun acc ch => acc ++ escChar ch e c sp dq) "" := rfl
    rw [h1, h2, hfold s.data e c sp dq "\""]

/-- C1 (witness): applying the pass-through clause at the character 'a'. -/
theorem C1_witness : escape (String.mk ['a']) false false false false false = String.mk ['a'] :=
  C1_escape_characterisation.2.2.2.1 'a' false false false false (by decide)

/-- C3: the scan of `get_new_entries` runs only over indices
`0 .. len-1`, so when the sole entry newer than the watermark is the last
entry of `current`, the code returns the empty slice even though that
entry's date is strictly greater than the watermark (the spec's step
"return the contiguous suffix starting at the first entry whose date is
strictly greater" would return the one-entry suffix). -/
theorem C3_off_by_one :
    KpFile.get_new_entries ⟨[entA, entB], -1⟩ ⟨[entA], -1⟩ = some [] ∧
      entA.date.ltb entB.date = true := by
  decide

/-- C6: whenever `current` is non-empty or `previous` is empty, the diff
evaluates without panicking (no index is out of bounds, no underflow);
and with an empty `current` against a non-empty `previous` the
`len()-1` computation does panic, so that case is indeed not covered. -/
theorem C6_index_safety :
    (∀ cur prev : KpFile, cur.entries ≠ [] ∨ prev.entries = [] →
        (KpFile.get_new_entries cur prev).isSome = true) ∧
      KpFile.get_new_entries ⟨[], -1⟩ ⟨[entA], -1⟩ = none := by
  constructor
  · intro cur prev h
    unfold KpFile.get_new_entries
    cases hl : prev.entries.getLast? with
    | none => simp
    | some lp =>
      have hpne : prev.entries ≠ [] := by
        intro he
        rw [he] at hl
        simp [List.getLast?] at hl
      have hcne : cur.entries ≠ [] := by
        cases h with
        | inl hc => exact hc
        | inr hp => exact absurd hp hpne
      cases hc : cur.entries with
      | nil => exact absurd hc hcne
      | cons a t =>
        simp only [hc, List.length_cons]
        cases findIdxB (fun e => lp.date.ltb e.date) ((a :: t).take t.length) <;> simp
  · decide

/-- C6 (witness): a one-entry current snapshot against an empty previous
snapshot evaluates safely. -/
theorem C6_witness : (KpFile.get_new_entries ⟨[entA], -1⟩ ⟨[], -1⟩).isSome = true :=
  C6_index_safety.1 ⟨[entA], -1⟩ ⟨[], -1⟩ (Or.inr rfl)

/-- C7: with both snapshots ascending by date and the previous snapshot's
last date at least the current snapshot's last date, the diff returns the
empty sequence. -/
theorem C7_superset_previous (cur prev : KpFile) (lc lp : Entry)
    (hc : cur.entries.getLast? = some lc) (hp : prev.entries.getLast? = some lp)
    (hsortc : cur.entries.Pairwise (fun a b => a.date.key ≤ b.date.key))
    (hsortp : prev.entries.Pairwise (fun a b => a.date.key ≤ b.date.key))
    (hge : lc.date.key ≤ lp.date.key) :
    KpFile.get_new_entries cur prev = some [] := by
  unfold KpFile.get_new_entries
  rw [hp]
  cases hl : cur.entries with
  | nil =>
    rw [hl] at hc
    simp [List.getLast?] at hc
  | cons a t =>
    have hnone : findIdxB (fun e => lp.date.ltb e.date) ((a :: t).take t.length) = none := by
      apply findIdxB_eq_none
      intro e he
      have he' : e ∈ cur.entries := by
        rw [hl]
        exact List.mem_of_mem_take he
      have hle : e.date.key ≤ lc.date.key := pairwise_le_getLast _ _ hsortc hc e he'
      simp only [DateTime.ltb, decide_eq_false_iff_not, not_lt]
      omega
    show (match findIdxB (fun e => lp.date.ltb e.date) ((a :: t).take t.length) with
      | some idx => some ((a :: t).drop idx)
      | none => some []) = some []
    rw [hnone]

/-- C7 (witness): a later one-entry previous snapshot against an earlier
one-entry current snapshot yields the empty sequence. -/
theorem C7_witness : KpFile.get_new_entries ⟨[entA], -1⟩ ⟨[entB], -1⟩ = some [] :=
  C7_superset_previous ⟨[entA], -1⟩ ⟨[entB], -1⟩ entA entB rfl rfl
    (by simp) (by simp) (by decide)

/-- C8: an empty previous snapshot makes the diff return every entry of
the current snapshot, unchanged and in order. -/
theorem C8_empty_previous (cur prev : KpFile) (h : prev.entries = []) :
    KpFile.get_new_entries cur prev = some cur.entries := by
  unfold KpFile.get_new_entries
  rw [h]
  rfl

/-- C8 (witness): concrete instance of the empty-previous case. -/
theorem C8_witness : KpFile.get_new_entries ⟨[entA], -1⟩ ⟨[], -1⟩ = some [entA] :=
  C8_empty_previous ⟨[entA], -1⟩ ⟨[], -1⟩ rfl

/-- Transitivity of the byte-lexicographic character-list order. -/
theorem chListLt_trans : ∀ a b c : List Char,
    chListLt a b = true → chListLt b c = true → chListLt a c = true := by
  intro a
  induction a with
  | nil =>
    intro b c hab hbc
    cases c with
    | nil =>
      cases b with
      | nil => exact hbc
      | cons bh bt => simp [chListLt] at hbc
    | cons ch ct => simp [chListLt]
  | cons ah at' ih =>
    intro b c hab hbc
    cases b with
    | nil => simp [chListLt] at hab
    | cons bh bt =>
      cases c with
      | nil => simp [chListLt] at hbc
      | cons chh ct =>
        simp only [chListLt] at hab hbc ⊢
        by_cases h1 : ah.toNat < bh.toNat
        · by_cases h2 : bh.toNat < chh.toNat
          · rw [if_pos (by omega)]
          · rw [if_neg h2] at hbc
            by_cases h3 : chh.toNat < bh.toNat
            · rw [if_pos h3] at hbc
              exact absurd hbc (by simp)
            · rw [if_neg h3] at hbc
              rw [if_pos (by omega)]
        · rw [if_neg h1] at hab
          by_cases h1' : bh.toNat < ah.toNat
          · rw [if_pos h1'] at hab
            exact absurd hab (by simp)
          · rw [if_neg h1'] at hab
            by_cases h2 : bh.toNat < chh.toNat
            · rw [if_pos (by omega)]
            · rw [if_neg h2] at hbc
              by_cases h3 : chh.toNat < bh.toNat
              · rw [if_pos h3] at hbc
                exact absurd hbc (by simp)
              · rw [if_neg h3] at hbc
                rw [if_neg (by omega), if_neg (by omega)]
                exact ih bt ct hab hbc

/-- When `a` is not below `b` and differs from it, `b` is below `a`. -/
theorem chListLt_connex : ∀ a b : List Char,
    chListLt a b = false → a ≠ b → chListLt b a = true := by
  intro a
  induction a with
  | nil =>
    intro b hf hne
    cases b with
    | nil => exact absurd rfl hne
    | cons bh bt => simp [chListLt] at hf
  | cons ah at' ih =>
    intro b hf hne
    cases b with
    | nil => simp [chListLt]
    | cons bh bt =>
      simp only [chListLt] at hf ⊢
      by_cases h1 : ah.toNat < bh.toNat
      · rw [if_pos h1] at hf
        exact absurd hf (by simp)
      · rw [if_neg h1] at hf
        by_cases h2 : bh.toNat < ah.toNat
        · rw [if_pos h2]
        · rw [if_neg h2] at hf
          rw [if_neg (by omega), if_neg (by omega)]
          have hn : ah.toNat = bh.toNat := by omega
          have hh : ah = bh := by
            apply Char.ext
            apply UInt32.ext
            exact hn
          apply ih bt hf
          intro hteq
          exact hne (by rw [hh, hteq])

/-- Transitivity of the string order. -/
theorem strLtb_trans {a b c : String} (h1 : strLtb a b = true)
    (h2 : strLtb b c = true) : strLtb a c = true :=
  chListLt_trans a.data b.data c.data h1 h2

/-- Totality of the string order on distinct strings. -/
theorem strLtb_connex {a b : String} (h1 : strLtb a b = false) (h2 : a ≠ b) :
    strLtb b a = true :=
  chListLt_connex a.data b.data h1 (fun hd => h2 (strExt hd))

/-- Every element of `btInsert k v l` is an element of `l` or carries the
key `k`. -/
theorem btInsert_mem (k v : String) :
    ∀ (l : List (String × String)) (x : String × String),
      x ∈ btInsert k v l → x ∈ l ∨ x.1 = k := by
  intro l
  induction l with
  | nil =>
    intro x hx
    simp [btInsert] at hx
    right
    rw [hx]
  | cons kv t ih =>
    intro x hx
    rcases kv with ⟨k', v'⟩
    simp only [btInsert] at hx
    by_cases h1 : strLtb k k' = true
    · rw [if_pos h1] at hx
      rcases List.mem_cons.mp hx with rfl | hx2
      · right
        rfl
      · left
        exact hx2
    · by_cases h2 : k = k'
      · rw [if_neg h1, if_pos h2] at hx
        rcases List.mem_cons.mp hx with rfl | hx2
        · right
          exact h2.symm
        · left
          exact List.mem_cons_of_mem _ hx2
      · rw [if_neg h1, if_neg h2] at hx
        rcases List.mem_cons.mp hx with rfl | hx2
        · left
          exact List.mem_cons_self _ _
        · rcases ih x hx2 with h | h
          · left
            exact List.mem_cons_of_mem _ h
          · right
            exact h

/-- `btInsert` preserves strict ascending key order. -/
theorem btInsert_sorted (k v : String) :
    ∀ l : List (String × String),
      l.Pairwise (fun a b => strLtb a.1 b.1 = true) →
      (btInsert k v l).Pairwise (fun a b => strLtb a.1 b.1 = true) := by
  intro l
  induction l with
  | nil =>
    intro _
    simp [btInsert]
  | cons kv t ih =>
    intro hp
    rcases kv with ⟨k', v'⟩
    rcases List.pairwise_cons.mp hp with ⟨hall, ht⟩
    simp only [btInsert]
    by_cases h1 : strLtb k k' = true
    · rw [if_pos h1]
      apply List.pairwise_cons.mpr
      refine ⟨?_, hp⟩
      intro y hy
      rcases List.mem_cons.mp hy with rfl | hy2
      · exact h1
      · exact strLtb_trans h1 (hall y hy2)
    · by_cases h2 : k = k'
      · rw [if_neg h1, if_pos h2]
        exact List.pairwise_cons.mpr ⟨hall, ht⟩
      · rw [if_neg h1, if_neg h2]
        apply List.pairwise_cons.mpr
        refine ⟨?_, ih ht⟩
        intro y hy
        rcases btInsert_mem k v t y hy with h | h
        · exact hall y h
        · rw [h]
          exact strLtb_connex (Bool.eq_false_iff.mpr h1) h2

/-- Looking up the inserted key in a `hmInsert` result finds the new
value. -/
theorem assocFind_hmInsert (k : String) (v : α) :
    ∀ l : List (String × α), assocFind? k (hmInsert k v l) = some v := by
  intro l
  induction l with
  | nil => simp [hmInsert, assocFind?]
  | cons kv t ih =>
    rcases kv with ⟨k', v'⟩
    simp only [hmInsert]
    by_cases h : k' = k
    · rw [if_pos h]
      simp [assocFind?, h]
    · rw [if_neg h]
      simp [assocFind?, h, ih]

/-- Looking up the inserted key in a `btInsert` result finds the new
value. -/
theorem assocFind_btInsert (k v : String) :
    ∀ l : List (String × String), assocFind? k (btInsert k v l) = some v := by
  intro l
  induction l with
  | nil => simp [btInsert, assocFind?]
  | cons kv t ih =>
    rcases kv with ⟨k', v'⟩
    simp only [btInsert]
    by_cases h1 : strLtb k k' = true
    · rw [if_pos h1]
      simp [assocFind?]
    · by_cases h2 : k = k'
      · rw [if_neg h1, if_pos h2]
        simp [assocFind?, h2]
      · rw [if_neg h1, if_neg h2]
        have hk : ¬(k' = k) := fun h => h2 h.symm
        simp [assocFind?, hk, ih]

/-- A list permuting a two-element list is one of its two orderings. -/
theorem permPair {α : Type} {x y : α} : ∀ {l : List α},
    l.Perm [x, y] → l = [x, y] ∨ l = [y, x] := by
  intro l h
  have hl := h.length_eq
  rcases l with _ | ⟨a, l⟩
  · simp at hl
  rcases l with _ | ⟨b, l⟩
  · simp at hl
  rcases l with _ | ⟨c, l⟩
  case cons.cons.cons =>
    simp at hl
  have ha : a ∈ [x, y] := h.subset (List.mem_cons_self a [b])
  rcases List.mem_cons.mp ha with rfl | ha'
  · have h2 : [b].Perm [y] := h.cons_inv
    have hb : b = y := by
      have h3 := List.perm_singleton.mp h2
      injection h3
    left
    rw [hb]
  · have hay : a = y := List.mem_singleton.mp ha'
    have hswap : ([x, y] : List α).Perm [y, x] := List.Perm.swap y x []
    have h3 : ([a, b] : List α).Perm [y, x] := h.trans hswap
    rw [hay] at h3
    have h4 : [b].Perm [x] := h3.cons_inv
    have hb : b = x := by
      have h5 := List.perm_singleton.mp h4
      injection h5
    right
    rw [hay, hb]

/-- The tag loop of `to_line_protocol` appends one `tagPart` per tag to
the running buffer. -/
theorem tagsFold : ∀ (l : List (String × String)) (init : String),
    l.foldl (fun acc kv =>
        acc ++ "," ++ escape kv.1 true true true true false ++ "="
          ++ escape kv.2 true true true true false) init
      = init ++ strConcat (l.map tagPart) := by
  intro l
  induction l with
  | nil =>
    intro init
    simp only [List.foldl_nil, List.map_nil, strConcat]
    rw [strAppendNil]
  | cons kv t ih =>
    intro init
    simp only [List.foldl_cons, List.map_cons]
    rw [ih]
    apply strExt
    simp [String.data_append, strConcat, tagPart]

/-- The field loop of `to_line_protocol` (fold over buffer and separator)
emits the fields joined by commas after the pending separator. -/
theorem valuesFold : ∀ (l : List (String × Value)) (init sep : String),
    (l.foldl (fun (p : String × String) kv =>
        (p.1 ++ p.2 ++ escape kv.1 true true true true false ++ "=" ++ kv.2.display, ","))
      (init, sep)).1
      = if l = [] then init else init ++ sep ++ joinSep "," (l.map fieldPart) := by
  intro l
  induction l with
  | nil =>
    intro init sep
    simp
  | cons kv t ih =>
    intro init sep
    simp only [List.foldl_cons]
    rw [ih]
    rcases t with _ | ⟨kv2, t2⟩
    · rw [if_pos rfl, if_neg (by simp : ¬(kv :: ([] : List (String × Value)) = []))]
      apply strExt
      simp [String.data_append, fieldPart, joinSep]
    · rw [if_neg (by simp : ¬(kv2 :: t2 = [])),
        if_neg (by simp : ¬(kv :: kv2 :: t2 = []))]
      apply strExt
      simp [String.data_append, fieldPart, joinSep]

/-- C2: the claim as stated is false: the fields live in a `HashMap`,
whose iteration order is unspecified and need not be insertion order.  A
measurement holding exactly the example's field contents (a permutation
of inserting `kp` then `ap`) can render with `ap` first, which differs
from the claimed exact string. -/
theorem C2_counterexample :
    ([("ap", Value.Signed 7), ("kp", Value.Float (.num ⟨2, 1⟩))] : List (String × Value)).Perm
        [("kp", Value.Float (.num ⟨2, 1⟩)), ("ap", Value.Signed 7)] ∧
      Measurement.to_line_protocol
          ⟨"iono_activity", none, [("ap", Value.Signed 7), ("kp", Value.Float (.num ⟨2, 1⟩))],
            [("def", "1")]⟩ .None
        = "iono_activity,def=1 ap=7i,kp=2" ∧
      ("iono_activity,def=1 ap=7i,kp=2" : String) ≠ "iono_activity,def=1 kp=2,ap=7i" := by
  refine ⟨by decide, by decide, by decide⟩

/-- C2 (amended): `to_line_protocol` emits exactly the escaped name, one
`,key=value` per tag in stored (ascending) order, one space, the fields
in the map's iteration order (NOT necessarily insertion order) separated
by commas, and the optional timestamp; `add_tag` keeps the tag keys in
strictly ascending order; and the spec's example measurement renders to
the claimed string or to its field-swapped variant, depending on the
hash map's iteration order. -/
theorem C2_line_protocol :
    (∀ (m : Measurement) (fmt : TimestampFormat), m.values ≠ [] →
        m.to_line_protocol fmt = lineSpec m fmt) ∧
      (∀ (m : Measurement) (key value : String) (replace : Bool),
        m.tags.Pairwise (fun a b => strLtb a.1 b.1 = true) →
        ((m.add_tag key value replace).tags).Pairwise (fun a b => strLtb a.1 b.1 = true)) ∧
      (∀ vs : List (String × Value),
        vs.Perm [("kp", Value.Float (.num ⟨2, 1⟩)), ("ap", Value.Signed 7)] →
        Measurement.to_line_protocol ⟨"iono_activity", none, vs, [("def", "1")]⟩ .None
          ∈ ["iono_activity,def=1 kp=2,ap=7i", "iono_activity,def=1 ap=7i,kp=2"]) := by
  refine ⟨?_, ?_, ?_⟩
  · intro m fmt hne
    simp only [Measurement.to_line_protocol, lineSpec]
    rw [tagsFold m.tags (escape m.name false true true true false)]
    rw [valuesFold m.values _ " "]
    rw [if_neg hne]
    cases m.event_time <;> cases fmt <;> apply strExt <;>
      simp [String.data_append, tsPart, strDataNil]
  · intro m key value replace hp
    unfold Measurement.add_tag
    by_cases hc : (replace || !(assocContains m.tags key)) = true
    · rw [if_pos hc]
      exact btInsert_sorted _ _ _ hp
    · rw [if_neg hc]
      exact hp
  · intro vs h
    rcases permPair h with h1 | h1 <;> rw [h1] <;> decide

/-- C2 (witness): the general layout equation at a concrete measurement,
and the example membership at the insertion-order contents. -/
theorem C2_witness :
    (Measurement.to_line_protocol ⟨"m", none, [("f", Value.Signed 1)], []⟩ .None
        = lineSpec ⟨"m", none, [("f", Value.Signed 1)], []⟩ .None) ∧
      Measurement.to_line_protocol ⟨"iono_activity", none,
          [("kp", Value.Float (.num ⟨2, 1⟩)), ("ap", Value.Signed 7)], [("def", "1")]⟩ .None
        ∈ ["iono_activity,def=1 kp=2,ap=7i", "iono_activity,def=1 ap=7i,kp=2"] :=
  ⟨C2_line_protocol.1 _ _ (by decide), C2_line_protocol.2.2 _ (List.Perm.refl _)⟩

/-- C5: the claim as stated is false: the presence test of `add_value`
uses the key as passed while insertion trims it, so two `replace=false`
calls with the identical key `"a "` (trailing space) both pass the
presence test and the second one overwrites the first value. -/
theorem C5_counterexample :
    (assocFind? "a"
        ((((Measurement.new "m").add_value "a " (Value.Signed 1) false).add_value
          "a " (Value.Signed 2) false).values) = some (Value.Signed 2)) ∧
      (assocFind? "a"
        (((Measurement.new "m").add_value "a " (Value.Signed 1) false).values)
          = some (Value.Signed 1)) ∧
      Value.Signed 2 ≠ Value.Signed 1 := by
  refine ⟨by decide, by decide, by decide⟩

/-- C5 (amended): when presence is measured on the key exactly as passed
(the untrimmed key), `add_value`/`add_tag` with `replace=false` leave the
stored mapping unchanged; with `replace=true` they always store the value
under the trimmed key; hence for keys without surrounding whitespace the
claimed no-op/overwrite/trim behaviour holds, while a key with
surrounding whitespace can overwrite even under `replace=false`. -/
theorem C5_builder_ops :
    (∀ (m : Measurement) (key : String) (v vold : Value),
        assocFind? key m.values = some vold → m.add_value key v false = m) ∧
      (∀ (m : Measurement) (key value vold : String),
        assocFind? key m.tags = some vold → m.add_tag key value false = m) ∧
      (∀ (m : Measurement) (key : String) (v : Value),
        assocFind? (rustTrim key) (m.add_value key v true).values = some v) ∧
      (∀ (m : Measurement) (key value : String),
        assocFind? (rustTrim key) (m.add_tag key value true).tags = some value) := by
  refine ⟨?_, ?_, ?_, ?_⟩
  · intro m key v vold h
    unfold Measurement.add_value
    rw [if_neg (by simp [assocContains, h])]
  · intro m key value vold h
    unfold Measurement.add_tag
    rw [if_neg (by simp [assocContains, h])]
  · intro m key v
    unfold Measurement.add_value
    rw [if_pos (by simp)]
    exact assocFind_hmInsert (rustTrim key) v m.values
  · intro m key value
    unfold Measurement.add_tag
    rw [if_pos (by simp)]
    exact assocFind_btInsert (rustTrim key) value m.tags

/-- C5 (witness): a no-op `replace=false` call on a present untrimmed key
and an overwriting `replace=true` call, at concrete measurements. -/
theorem C5_witness :
    (Measurement.add_value ⟨"m", none, [("a", Value.Signed 1)], []⟩ "a" (Value.Signed 2) false
        = ⟨"m", none, [("a", Value.Signed 1)], []⟩) ∧
      assocFind? "t"
        ((Measurement.add_tag ⟨"m", none, [], [("t", "old")]⟩ "t" "new" true).tags)
          = some "new" :=
  ⟨C5_builder_ops.1 _ "a" (Value.Signed 2) (Value.Signed 1) (by decide),
    C5_builder_ops.2.2.2 ⟨"m", none, [], [("t", "old")]⟩ "t" "new"⟩

/-- Appending one entry shifts the last-final-index bookkeeping exactly
as the parser's `d == 1` update does. -/
theorem specLastFinal_append (es : List Entry) (e : Entry) :
    specLastFinal (es ++ [e])
      = if e.d = 1 then (es.length : Int) else specLastFinal es := by
  unfold specLastFinal
  rw [List.reverse_append]
  simp only [List.reverse_cons, List.reverse_nil, List.nil_append, List.singleton_append]
  by_cases hd : e.d = 1
  · rw [if_pos hd]
    simp [findIdxB, hd, List.length_append]
  · rw [if_neg hd]
    have hd' : (decide (e.d = 1)) = false := by simp [hd]
    simp only [findIdxB, hd', Bool.false_eq_true, if_false]
    cases hfi : findIdxB (fun x => decide (x.d = 1)) es.reverse with
    | none => simp
    | some k =>
      simp only [Option.map_some']
      simp only [List.length_append, List.length_singleton]
      push_cast
      ring

/-- The invariant maintained by the snapshot parser: stored entries are
never negative-kp or negative-ap, and `last_final_idx` tracks the last
stored definitive entry. -/
def fileInv (f : KpFile) : Prop :=
  (∀ e ∈ f.entries, e.kp.ltb (FVal.num ⟨0, 1⟩) = false ∧ 0 ≤ e.ap) ∧
    f.last_final_idx = specLastFinal f.entries

/-- One parser loop iteration preserves the snapshot invariant. -/
theorem processLine_inv (f : KpFile) (l : String) (f' : KpFile)
    (h : KpFile.processLine f l = some (.ok f')) (hf : fileInv f) : fileInv f' := by
  unfold KpFile.processLine at h
  by_cases hs : skipLine l = true
  · rw [if_pos hs] at h
    simp only [Option.some.injEq, Except.ok.injEq] at h
    rw [← h]
    exact hf
  · rw [if_neg hs] at h
    cases hfs : Entry.from_str (rustTrim l) with
    | none =>
      rw [hfs] at h
      simp at h
    | some r =>
      rw [hfs] at h
      cases r with
      | error e => simp at h
      | ok entry =>
        simp only at h
        by_cases hflt : (entry.kp.ltb (.num ⟨0, 1⟩) || decide (entry.ap < 0)) = true
        · rw [if_pos hflt] at h
          simp only [Option.some.injEq, Except.ok.injEq] at h
          rw [← h]
          exact hf
        · rw [if_neg hflt] at h
          simp only [Option.some.injEq, Except.ok.injEq] at h
          have hb : (entry.kp.ltb (.num ⟨0, 1⟩) || decide (entry.ap < 0)) = false := by
            revert hflt
            cases entry.kp.ltb (.num ⟨0, 1⟩) || decide (entry.ap < 0) <;> simp
          have hkp : entry.kp.ltb (.num ⟨0, 1⟩) = false := (Bool.or_eq_false_iff.mp hb).1
          have hap : 0 ≤ entry.ap := by
            have := (Bool.or_eq_false_iff.mp hb).2
            simp at this
            omega
          rw [← h]
          constructor
          · intro e he
            rcases List.mem_append.mp he with h1 | h1
            · exact hf.1 e h1
            · rcases List.mem_singleton.mp h1 with rfl
              exact ⟨hkp, hap⟩
          · show (if entry.d = 1 then (f.entries.length : Int) else f.last_final_idx)
                = specLastFinal (f.entries ++ [entry])
            rw [specLastFinal_append]
            by_cases hd : entry.d = 1
            · rw [if_pos hd, if_pos hd]
            · rw [if_neg hd, if_neg hd]
              exact hf.2
/-- The parser loop preserves the snapshot invariant over any line list. -/
theorem fromStrGo_inv : ∀ (ls : List String) (f : KpFile), fileInv f →
    ∀ f', KpFile.fromStrGo f ls = some (.ok f') → fileInv f' := by
  intro ls
  induction ls with
  | nil =>
    intro f hf f' h
    simp only [KpFile.fromStrGo, Option.some.injEq, Except.ok.injEq] at h
    rw [← h]
    exact hf
  | cons l t ih =>
    intro f hf f' h
    simp only [KpFile.fromStrGo] at h
    cases hpl : KpFile.processLine f l with
    | none =>
      rw [hpl] at h
      simp at h
    | some r =>
      rw [hpl] at h
      cases r with
      | error e => simp at h
      | ok f2 =>
        simp only at h
        exact ih f2 (processLine_inv f l f2 hpl hf) f' h

/-- Decidable equality of parse results. -/
instance {ε α : Type} [DecidableEq ε] [DecidableEq α] : DecidableEq (Except ε α) := fun a b =>
  match a, b with
  | .error e1, .error e2 =>
    if h : e1 = e2 then .isTrue (congrArg Except.error h)
    else .isFalse (fun hc => h (by cases hc; rfl))
  | .ok a1, .ok a2 =>
    if h : a1 = a2 then .isTrue (congrArg Except.ok h)
    else .isFalse (fun hc => h (by cases hc; rfl))
  | .error _, .ok _ => .isFalse (fun hc => by cases hc)
  | .ok _, .error _ => .isFalse (fun hc => by cases hc)

/-- A feed blob mixing a comment, a definitive row, a blank line, a
sentinel row (`-1.000 -1`) and a provisional row, as in the repository's
own test data. -/
def mixedBlob : String :=
  "# header\n2022 07 31 18.0 19.50 1.0 1.0 2.000 7 1\n\n2022 08 18 09.0 10.50 1.0 1.0 -1.000 -1 0\n2022 08 18 12.0 13.50 1.0 1.0 3.000 15 0"

/-- A feed blob whose kp column holds the token `nan`, which Rust's
`f32` parser accepts. -/
def nanBlob : String := "2022 07 31 18.0 19.50 1.0 1.0 nan 7 1"

/-- C4: the claim as stated is false: `nan` is a valid Rust `f32`
literal, `NaN < 0.0` is false, so a NaN row passes the sentinel filter
and is stored, yet a stored NaN kp does not satisfy `index_value >= 0`
(IEEE `0 <= NaN` is false). -/
theorem C4_counterexample :
    KpFile.from_str nanBlob
        = some (.ok ⟨[⟨⟨2022, 7, 31, 19, 30, 0⟩, .nan, 7, 1⟩], 0⟩) ∧
      FVal.leb (.num ⟨0, 1⟩) FVal.nan = false := by
  refine ⟨by decide, by decide⟩

/-- C4 (amended): every entry stored by an accepted snapshot parse
satisfies NOT `index_value < 0` (rather than `index_value >= 0`: a NaN
kp passes the filter) and `auxiliary_value >= 0`, and `last_final_idx`
is the position of the last stored entry with finality flag 1, or -1
when there is none. -/
theorem C4_snapshot_invariants (text : String) (file : KpFile)
    (h : KpFile.from_str text = some (.ok file)) :
    (∀ e ∈ file.entries, e.kp.ltb (FVal.num ⟨0, 1⟩) = false ∧ 0 ≤ e.ap) ∧
      file.last_final_idx = specLastFinal file.entries :=
  fromStrGo_inv (rustLines text) KpFile.new ⟨by simp [KpFile.new], rfl⟩ file h

/-- C4 (witness): the invariants instantiated on the mixed blob, whose
accepted snapshot keeps only the two valid rows and points
`last_final_idx` at the definitive first row. -/
theorem C4_witness :
    (∀ e ∈ ([⟨⟨2022, 7, 31, 19, 30, 0⟩, .num ⟨2000, 1000⟩, 7, 1⟩,
          ⟨⟨2022, 8, 18, 13, 30, 0⟩, .num ⟨3000, 1000⟩, 15, 0⟩] : List Entry),
        e.kp.ltb (FVal.num ⟨0, 1⟩) = false ∧ 0 ≤ e.ap) ∧
      (0 : Int) = specLastFinal
        [⟨⟨2022, 7, 31, 19, 30, 0⟩, .num ⟨2000, 1000⟩, 7, 1⟩,
          ⟨⟨2022, 8, 18, 13, 30, 0⟩, .num ⟨3000, 1000⟩, 15, 0⟩] :=
  C4_snapshot_invariants mixedBlob
    ⟨[⟨⟨2022, 7, 31, 19, 30, 0⟩, .num ⟨2000, 1000⟩, 7, 1⟩,
      ⟨⟨2022, 8, 18, 13, 30, 0⟩, .num ⟨3000, 1000⟩, 15, 0⟩], 0⟩ (by decide)

/-- C9: entry parsing rejects every line whose whitespace-separated token
count is not exactly 10 with the structural error, and the spec's example
line parses to the entry with date 2022-07-31 19:30:00 (fractional hour
19.50 split into floor hour 19 and minutes 0.5 × 60 = 30), kp 2.0, ap 7,
finality flag 1. -/
theorem C9_entry_parsing :
    (∀ line : String, (splitWs (rustTrim line)).length ≠ 10 →
        Entry.from_str line = some (.error (.Error "Line with invalid number of elements"))) ∧
      Entry.from_str "2022 07 31 18.0 19.50 33084.75000 33084.81250 2.000 7 1"
        = some (.ok ⟨⟨2022, 7, 31, 19, 30, 0⟩, .num ⟨2000, 1000⟩, 7, 1⟩) := by
  constructor
  · intro line h
    simp only [Entry.from_str]
    rw [if_pos h]
  · decide

/-- C9 (witness): the token-count clause applied to a 1-token line. -/
theorem C9_witness :
    Entry.from_str "Foobar" = some (.error (.Error "Line with invalid number of elements")) :=
  C9_entry_parsing.1 "Foobar" (by decide)

/-- Does this line parse as an `Entry` without error and without panic? -/
def lineParsesOk (l : String) : Bool :=
  match Entry.from_str (rustTrim l) with
  | some (.ok _) => true
  | _ => false

/-- Lines that are skipped or parse cleanly leave the parser loop running:
the loop over them reaches the remaining lines with some accumulator. -/
theorem fromStrGo_pre : ∀ (pre : List String) (f : KpFile) (rest : List String),
    (∀ l ∈ pre, skipLine l = true ∨ lineParsesOk l = true) →
    ∃ f', KpFile.fromStrGo f (pre ++ rest) = KpFile.fromStrGo f' rest := by
  intro pre
  induction pre with
  | nil =>
    intro f rest _
    exact ⟨f, rfl⟩
  | cons l t ih =>
    intro f rest hpre
    have hl := hpre l (List.mem_cons_self l t)
    have hex : ∃ f₂, KpFile.processLine f l = some (.ok f₂) := by
      unfold KpFile.processLine
      by_cases hs : skipLine l = true
      · rw [if_pos hs]
        exact ⟨f, rfl⟩
      · rw [if_neg hs]
        rcases hl with hl | hl
        · exact absurd hl hs
        · unfold lineParsesOk at hl
          cases hfs : Entry.from_str (rustTrim l) with
          | none =>
            rw [hfs] at hl
            simp at hl
          | some r =>
            rw [hfs] at hl
            cases r with
            | error e => simp at hl
            | ok en =>
              simp only
              by_cases hflt : (en.kp.ltb (.num ⟨0, 1⟩) || decide (en.ap < 0)) = true
              · rw [if_pos hflt]
                exact ⟨f, rfl⟩
              · rw [if_neg hflt]
                exact ⟨_, rfl⟩
    obtain ⟨f₂, hf₂⟩ := hex
    rw [List.cons_append]
    have hstep : KpFile.fromStrGo f (l :: (t ++ rest)) = KpFile.fromStrGo f₂ (t ++ rest) := by
      simp only [KpFile.fromStrGo]
      rw [hf₂]
    rw [hstep]
    exact ih f₂ rest (fun x hx => hpre x (List.mem_cons_of_mem l hx))

/-- A non-skipped line that fails to parse aborts the loop with exactly
that line's error. -/
theorem fromStrGo_bad (f : KpFile) (bad : String) (rest : List String) (e : ParseError)
    (hbad : skipLine bad = false) (herr : Entry.from_str (rustTrim bad) = some (.error e)) :
    KpFile.fromStrGo f (bad :: rest) = some (.error e) := by
  simp only [KpFile.fromStrGo, KpFile.processLine]
  rw [if_neg (by simp [hbad]), herr]

/-- A feed blob whose first line carries month 13 (an out-of-range date,
on which `from_ymd` panics) followed by a malformed line. -/
def panicBlob : String := "2022 13 31 18.0 19.50 1.0 1.0 2.000 7 1\nfoo"

/-- C10: the claim as stated is false: in this blob the line `foo` fails
to parse with a structural error, yet the whole snapshot parse does not
return that error — the earlier line constructs an out-of-range calendar
date, on which `chrono::NaiveDate::from_ymd` panics (modelled `none`), so
no `ParseError` is ever returned. -/
theorem C10_counterexample :
    Entry.from_str "foo" = some (.error (.Error "Line with invalid number of elements")) ∧
      skipLine "foo" = false ∧
      KpFile.from_str panicBlob = none := by
  refine ⟨by decide, by decide, by decide⟩

/-- C10 (amended): if the lines of the blob split as skipped-or-cleanly-
parsed lines, then a non-skipped line failing with a parse error, then
anything, the whole snapshot parse returns exactly that line's error and
produces no snapshot; only trimmed-empty or `#`-starting lines are
skipped.  (The amendment restricts the earlier lines to ones that do not
panic: an out-of-range date aborts instead of returning an error.) -/
theorem C10_error_propagation (text : String) (pre : List String) (bad : String)
    (post : List String) (e : ParseError)
    (hsplit : rustLines text = pre ++ bad :: post)
    (hpre : ∀ l ∈ pre, skipLine l = true ∨ lineParsesOk l = true)
    (hbad : skipLine bad = false)
    (herr : Entry.from_str (rustTrim bad) = some (.error e)) :
    KpFile.from_str text = some (.error e) := by
  unfold KpFile.from_str
  rw [hsplit]
  obtain ⟨f', hf'⟩ := fromStrGo_pre pre KpFile.new (bad :: post) hpre
  rw [hf']
  exact fromStrGo_bad f' bad post e hbad herr

/-- A feed blob with a comment, one good row, then a malformed row. -/
def badBlob : String := "# h\n2022 07 31 18.0 19.50 1.0 1.0 2.000 7 1\nfoo"

/-- C10 (witness): the malformed third line's structural error is the
result of the whole parse. -/
theorem C10_witness :
    KpFile.from_str badBlob = some (.error (.Error "Line with invalid number of elements")) :=
  C10_error_propagation badBlob ["# h", "2022 07 31 18.0 19.50 1.0 1.0 2.000 7 1"] "foo" []
    (.Error "Line with invalid number of elements") (by decide) (by decide) (by decide) (by decide)
